import Mathlib

/-! Formal model of the MTMLDA sampler core. The definitions below embed the
code of src/src/mtmlda/sampling.py and src/utilities/utilities.py. Collaborator
modules (mltree, mcmc, jobhandling) are not part of the given sources; where a
definition depends on them it is modelled from the specification, as noted in
its doc comment. Log-posterior values (floats in the code) are modelled as
integers, of which only the linear order is used; parameter states
(numpy arrays in the code) are likewise modelled as integers. -/

namespace MTMLDA

/-! Section 1: utilities.py -/

/-- Configured seed value, either a list of seeds or a single integer,
mirroring the Union type annotation in utilities.py. -/
inductive Seeds where
  | ofList (l : List Int)
  | ofInt (n : Int)

/-- Embeds distribute_rng_seeds_to_processes, utilities.py lines 12-16.
For a list the code returns seeds[process_id] (out-of-range indexing is
modelled as none); for an integer s it returns int(s * process_id), which on
integer inputs equals s * process_id. -/
def distribute_rng_seeds_to_processes (seeds : Seeds) (process_id : Nat) : Option Int :=
  match seeds with
  | .ofList l => l[process_id]?
  | .ofInt s => some (s * (process_id : Int))

/-- A filesystem path, split into the leading directory components and the
final component, the name. Mirrors pathlib.Path as used by utilities.py. -/
structure FPath where
  parent : List String
  name : String
deriving DecidableEq

/-- Path.with_name: replace the final component, keep the directory. -/
def with_name (p : FPath) (n : String) : FPath :=
  { p with name := n }

/-- Embeds append_string_to_path, utilities.py lines 20-22:
path.with_name of the string interpolation of path.name, an underscore and
the given string. Note the code uses path.name, the full final component,
not path.stem. -/
def append_string_to_path (path : FPath) (s : String) : FPath :=
  with_name path (path.name ++ ("_") ++ s)

/-- The file targeted by save_chain, utilities.py line 36: the save path
extended with the interpolation of the process id and the .npy ending. -/
def save_chain_file (process_id : Nat) (save_path : FPath) : FPath :=
  append_string_to_path save_path (toString process_id ++ (".npy"))

/-- The file read by load_chain, utilities.py line 27. -/
def load_chain_file (process_id : Nat) (load_path : FPath) : FPath :=
  append_string_to_path load_path (toString process_id ++ (".npy"))

/-- The file targeted by save_node, utilities.py line 49. -/
def save_node_file (process_id : Nat) (save_path : FPath) : FPath :=
  append_string_to_path save_path (toString process_id ++ (".pkl"))

/-- The file read by load_node, utilities.py line 41. -/
def load_node_file (process_id : Nat) (load_path : FPath) : FPath :=
  append_string_to_path load_path (toString process_id ++ (".pkl"))

/-- The file targeted by save_rng_states, utilities.py line 64. -/
def save_rng_states_file (process_id : Nat) (save_path : FPath) : FPath :=
  append_string_to_path save_path (toString process_id ++ (".pkl"))

/-- The file read by load_rng_states, utilities.py line 55. -/
def load_rng_states_file (process_id : Nat) (load_path : FPath) : FPath :=
  append_string_to_path load_path (toString process_id ++ (".pkl"))

/-- Whether the string s ends with the string post. -/
def str_ends_with (s post : String) : Bool :=
  decide ((s.data.reverse.take post.data.length).reverse = post.data)

/-- Modelled from the documented behaviour of the external numpy library:
numpy.save appends a .npy ending to the given file name unless the name
already ends with .npy. -/
def np_save_target (p : FPath) : FPath :=
  if str_ends_with p.name (".npy") then p else { p with name := p.name ++ (".npy") }

/-- Index of the last dot character of a character list, if any. -/
def last_dot_index (cs : List Char) : Option Nat :=
  (List.range cs.length).foldl
    (fun acc i => if cs.getD i (' ') = ('.') then some i else acc) none

/-- Modelled from pathlib: Path.stem strips the final ending from the name.
The name is split at its last dot, provided that dot is neither the first
nor the last character of the name; otherwise the stem is the whole name. -/
def pyStem (name : String) : String :=
  let cs := name.data
  match last_dot_index cs with
  | some i => if 0 < i ∧ i + 1 < cs.length then { data := cs.take i } else name
  | none => name

/-! Section 2: RNG snapshots, sampling.py lines 36-39 and 118-130 -/

/-- A pseudo-random generator value (a numpy Generator in the code),
modelled abstractly by its internal state word. -/
structure RNG where
  word : Nat
deriving DecidableEq

/-- The RNGStates dataclass of sampling.py lines 36-39. -/
structure RNGStates where
  proposal : RNG
  mltree : RNG
  node_init : RNG
deriving DecidableEq

/-- The sampler attributes relevant to get_rngs and set_rngs: the ground
proposal generator, the tree modifier generator and the node initialisation
generator, together with further setup attributes that the two operations
leave untouched. -/
structure SamplerState where
  ground_proposal_rng : RNG
  mltree_modifier_rng : RNG
  rng_node_init : RNG
  num_levels : Nat
  underflow_threshold : Int
deriving DecidableEq

/-- Embeds MTMLDASampler.get_rngs, sampling.py lines 118-124. -/
def get_rngs (s : SamplerState) : RNGStates :=
  { proposal := s.ground_proposal_rng
    mltree := s.mltree_modifier_rng
    node_init := s.rng_node_init }

/-- Embeds MTMLDASampler.set_rngs, sampling.py lines 127-130. -/
def set_rngs (s : SamplerState) (rng_states : RNGStates) : SamplerState :=
  { s with
    ground_proposal_rng := rng_states.proposal
    mltree_modifier_rng := rng_states.mltree
    rng_node_init := rng_states.node_init }

/-! Section 3: the proposal tree, structural view. Nodes carry a state; the
tree links are the anytree parent and children links. Detaching a node
removes it from the children list of its parent. -/

/-- A proposal tree node: its state and its list of children. -/
inductive MTNode where
  | node (state : Int) (children : List MTNode)

/-- The state attribute of a node. -/
def MTNode.state : MTNode → Int
  | .node s _ => s

/-- The children list of a node. -/
def MTNode.children : MTNode → List MTNode
  | .node _ cs => cs

mutual

/-- The anytree height attribute: number of edges on the longest downward
path; a leaf has height zero. -/
def MTNode.height : MTNode → Nat
  | .node _ cs => height_list cs

/-- The largest value of child height plus one over a list of children. -/
def height_list : List MTNode → Nat
  | [] => 0
  | c :: cs => max (MTNode.height c + 1) (height_list cs)

end

mutual

/-- Modelled from the spec, section 4.1: MLTreeModifier.expand_tree walks the
tree and creates, for every childless leaf, one new child whose state is
produced by the proposal (or copied at a coarse subchain start); the level
and subchain bookkeeping and the fresh random draw of the child are not
needed for the height claims and are omitted. The proposal is abstracted by
the function p. -/
def expand_tree (p : Int → Int) : MTNode → MTNode
  | .node s [] => .node s [.node (p s) []]
  | .node s (c :: cs) => .node s (expand_list p (c :: cs))

/-- Expansion mapped over a children list. -/
def expand_list (p : Int → Int) : List MTNode → List MTNode
  | [] => []
  | c :: cs => expand_tree p c :: expand_list p cs

end

/-- Embeds MTMLDASampler._extend_tree_and_launch_jobs, sampling.py lines
143-155: while the tree height does not exceed the bound and a worker is
available, expand the tree and submit the best candidate. Worker
availability is modelled by the fuel argument, decremented once per
submission; probability updates and job submission do not change the tree. -/
def extend_tree_and_launch_jobs (maxH : Nat) (p : Int → Int) : Nat → MTNode → MTNode
  | 0, t => t
  | workers + 1, t =>
    if MTNode.height t ≤ maxH then
      extend_tree_and_launch_jobs maxH p workers (expand_tree p t)
    else t

/-- Modelled from the spec, section 4.2: get_unique_same_subchain_child
returns the single child of the root once the decision linking them has been
resolved, which the spec states is equivalent to the rejected sibling having
been detached; with detached nodes removed from the children list this is
the case exactly when the root has one remaining child. -/
def get_unique_same_subchain_child : MTNode → Option MTNode
  | .node _ [] => none
  | .node _ [c] => some c
  | .node _ (_ :: _ :: _) => none

/-- Embeds MTMLDASampler._propagate_chain, sampling.py lines 205-218: while
the root has a unique same-subchain child, append the root state to the
chain, detach the child from the old root and promote it to be the new root.
The loop has no other exit condition; in particular it does not consult the
requested number of samples. -/
def propagate_chain : List Int → MTNode → List Int × MTNode
  | chain, .node s [] => (chain, .node s [])
  | chain, .node s [c] => propagate_chain (chain ++ [s]) c
  | chain, .node s (c1 :: c2 :: cs) => (chain, .node s (c1 :: c2 :: cs))

/-- The successive roots during chain propagation: the promotion sequence
that starts at the given root and follows unique same-subchain children. -/
def spine_nodes : MTNode → List MTNode
  | .node _ [] => []
  | .node s [c] => .node s [c] :: spine_nodes c
  | .node _ (_ :: _ :: _) => []

/-- The main MCMC loop of MTMLDASampler.run, sampling.py lines 98-106, with
the first three phases of each iteration (extension, harvesting, decisions,
compression) abstracted into one tree transformation per iteration: the
chain advancement phase is _propagate_chain, and the loop breaks as soon as
the chain has at least num_samples entries. The returned flag records
whether the break was reached within the given list of iterations. -/
def run_loop_p (ns : Nat) : List (MTNode → MTNode) → List Int → MTNode → List Int × MTNode × Bool
  | [], chain, root => (chain, root, false)
  | f :: rest, chain, root =>
    let pr := propagate_chain chain (f root)
    if ns ≤ pr.1.length then (pr.1, pr.2, true)
    else run_loop_p ns rest pr.1 pr.2

/-- A linear tree with the given number of edges, all states zero. -/
def spine : Nat → MTNode
  | 0 => .node 0 []
  | k + 1 => .node 0 [spine k]

/-! Section 4: the proposal tree, attribute view, used for the harvesting
phase. Nodes are identified by numbers; the mutable attributes are the
optional logposterior and the detached flag (parent set to none). -/

/-- The per-node mutable attributes of the proposal tree: the optional
logposterior of each node and whether the node has been detached from its
parent. -/
structure TreeState where
  lp : Nat → Option Int
  det : Nat → Bool

/-- Embeds the loop body of MTMLDASampler._update_tree_from_finished_jobs,
sampling.py lines 159-166: a harvested pair of a result and a node either
detaches the node (result below the underflow threshold) or stores the
result as the node logposterior. The collaborator call update_descendants
only recomputes derived readiness information (spec, section 4.1), which
this model derives from logposterior presence on demand, so it leaves the
modelled state unchanged. -/
def update_from_finished_job (thr : Int) (σ : TreeState) (job : Int × Nat) : TreeState :=
  if job.1 < thr then { σ with det := Function.update σ.det job.2 true }
  else { σ with lp := Function.update σ.lp job.2 (some job.1) }

/-- Embeds MTMLDASampler._update_tree_from_finished_jobs, sampling.py lines
157-167: fold the single job update over the harvested list of pairs, in
harvest order. -/
def update_tree_from_finished_jobs (thr : Int) (σ : TreeState) (jobs : List (Int × Nat)) : TreeState :=
  jobs.foldl (update_from_finished_job thr) σ

/-- Modelled from the spec, section 4.2: a node is available for an MCMC
decision when its own logposterior and those of the relevant comparison
nodes are known. The function required gives, for each node, the list of
nodes whose logposteriors the decision at that node reads (the node itself
among them); only the readiness component of the Python triple is modelled. -/
def check_if_node_is_available_for_decision (required : Nat → List Nat) (σ : TreeState) (n : Nat) : Bool :=
  (required n).all fun m => (σ.lp m).isSome

/-- Modelled from the spec, section 4.2, on the attribute view: the unique
same-subchain child of the root is its single non-detached child, provided
the decision linking the two has been resolved, which requires the child
logposterior to be known. -/
def unique_attached_child (children : Nat → List Nat) (σ : TreeState) (r : Nat) : Option Nat :=
  match ((children r).filter fun c => ! σ.det c) with
  | [c] => if (σ.lp c).isSome then some c else none
  | _ => none

/-- Chain propagation on the attribute view, mirroring _propagate_chain:
follow unique attached children from the root, collecting the state of each
promoted-away root; the fuel argument bounds the walk. Returns the appended
states and the final root. -/
def propagate_flags (children : Nat → List Nat) (stOf : Nat → Int) :
    Nat → TreeState → Nat → List Int × Nat
  | 0, _, r => ([], r)
  | fuel + 1, σ, r =>
    match unique_attached_child children σ r with
    | some c =>
      let pr := propagate_flags children stOf fuel σ c
      (stOf r :: pr.1, pr.2)
    | none => ([], r)

/-- The main MCMC loop on the attribute view, sampling.py lines 98-106, one
entry of the batch list per iteration: harvest the batch of finished jobs
delivered in that iteration (lines 157-167), apply the deterministic
decision and compression phases dp (lines 170-202 and the collaborator
compress_resolved_subchains), advance the chain, and break once the chain
has at least ns entries. Returns none when the iteration list is exhausted
before the break. -/
def run_batches (children : Nat → List Nat) (stOf : Nat → Int) (dp : TreeState → TreeState)
    (thr : Int) (ns fuel : Nat) :
    List (List (Int × Nat)) → TreeState → Nat → List Int → Option (List Int)
  | [], _, _, _ => none
  | b :: rest, σ, r, chain =>
    let σ1 := dp (update_tree_from_finished_jobs thr σ b)
    let pr := propagate_flags children stOf fuel σ1 r
    let chain1 := chain ++ pr.1
    if ns ≤ chain1.length then some chain1
    else run_batches children stOf dp thr ns fuel rest σ1 pr.2 chain1

/-- Concrete tree links for examples: node 0 is the root with single child
node 1, whose single child is node 2, a leaf. -/
def exChildren : Nat → List Nat :=
  fun n => if n = 0 then [1] else if n = 1 then [2] else []

/-- Concrete node states for examples: the state of node n is n. -/
def exStates : Nat → Int :=
  fun n => Int.ofNat n

/-- The empty attribute state: no logposteriors known, nothing detached. -/
def exInit : TreeState :=
  { lp := fun _ => none, det := fun _ => false }

/-! Section 5: the run driver with exceptions, sampling.py lines 80-115 -/

/-- The outcome of the main loop inside the try block: the loop either
reached its break with the accumulated chain, or an exception was raised
with the chain accumulated so far, or the modelled iteration trace was
exhausted with the loop still running. -/
inductive LoopOutcome where
  | broke (chain : List Int)
  | excepted (chain : List Int) (e : Nat)
  | ongoing (chain : List Int)
deriving DecidableEq

/-- The chain accumulated in a loop outcome. -/
def chain_of : LoopOutcome → List Int
  | .broke c => c
  | .excepted c _ => c
  | .ongoing c => c

/-- The main MCMC loop of run, sampling.py lines 98-106, with each iteration
abstracted by the list of states its chain advancement appends together with
an optional exception raised during the iteration (models and collaborators
may raise arbitrary exceptions, modelled by numeric tokens). The loop breaks
once the chain has at least ns entries. -/
def main_loop (ns : Nat) : List (List Int × Option Nat) → List Int → LoopOutcome
  | [], chain => .ongoing chain
  | (xs, oe) :: rest, chain =>
    let chain1 := chain ++ xs
    match oe with
    | some e => .excepted chain1 e
    | none => if ns ≤ chain1.length then .broke chain1 else main_loop ns rest chain1

/-- Embeds MTMLDASampler.run, sampling.py lines 80-115. Before the try block
the code initialises the tree root, drawing from the node initialisation
generator (line 87, modelled by node_init_draw, which may raise), and seeds
the chain with the initial state (line 88). The try block runs the main
loop; the except clause catches BaseException, and the finally clause
returns the accumulated chain, discarding any in-flight exception, so every
outcome of the try block yields the accumulated chain. A trace too short for
the loop to finish yields none (the call has not returned yet). -/
def sampler_run (ns : Nat) (node_init_draw : Except Nat Unit)
    (effects : List (List Int × Option Nat)) (initial : Int) : Option (Except Nat (List Int)) :=
  match node_init_draw with
  | .error e => some (.error e)
  | .ok _ =>
    match main_loop ns effects [initial] with
    | .broke c => some (.ok c)
    | .excepted c _ => some (.ok c)
    | .ongoing _ => none

end MTMLDA

namespace MTMLDA

/-! Helper lemmas -/

/-- Chain propagation appends exactly the states of the successive roots. -/
theorem propagate_chain_fst : ∀ (chain : List Int) (root : MTNode),
    (propagate_chain chain root).1 = chain ++ (spine_nodes root).map MTNode.state := by
  intro chain root
  induction chain, root using propagate_chain.induct with
  | case1 chain s => simp [propagate_chain, spine_nodes]
  | case2 chain s c ih => simp [propagate_chain, spine_nodes, ih, MTNode.state]
  | case3 chain s c1 c2 cs => simp [propagate_chain, spine_nodes]

/-- One expansion pass increases the tree height by at most one. -/
theorem expand_height_le (p : Int → Int) : ∀ t : MTNode,
    MTNode.height (expand_tree p t) ≤ MTNode.height t + 1 := by
  have key : ∀ n : Nat,
      (∀ t : MTNode, sizeOf t ≤ n → MTNode.height (expand_tree p t) ≤ MTNode.height t + 1)
    ∧ (∀ cs : List MTNode, sizeOf cs ≤ n → height_list (expand_list p cs) ≤ height_list cs + 1) := by
    intro n
    induction n with
    | zero =>
      constructor
      · intro t h; cases t with
        | node s cs => simp at h
      · intro cs h; cases cs with
        | nil => simp [expand_list, height_list]
        | cons c cs => simp at h
    | succ n ih =>
      constructor
      · intro t h
        cases t with
        | node s cs =>
          cases cs with
          | nil => simp [expand_tree, MTNode.height, height_list]
          | cons c cs =>
            have hsz : sizeOf (c :: cs) ≤ n := by simp at h ⊢; omega
            have := ih.2 (c :: cs) hsz
            simpa [expand_tree, MTNode.height] using this
      · intro cs h
        cases cs with
        | nil => simp [expand_list, height_list]
        | cons c cs =>
          have hc : sizeOf c ≤ n := by simp at h ⊢; omega
          have hcs : sizeOf cs ≤ n := by simp at h ⊢; omega
          have h1 := ih.1 c hc
          have h2 := ih.2 cs hcs
          simp only [expand_list, height_list]
          omega
  intro t
  exact (key (sizeOf t)).1 t (Nat.le_refl _)

/-- The chain accumulated by the main loop extends the input chain. -/
theorem main_loop_chain_decomp (ns : Nat) : ∀ (effects : List (List Int × Option Nat)) (chain : List Int),
    ∃ t, chain_of (main_loop ns effects chain) = chain ++ t := by
  intro effects
  induction effects with
  | nil => intro chain; exact ⟨[], by simp [main_loop, chain_of]⟩
  | cons e rest ih =>
    intro chain
    obtain ⟨xs, oe⟩ := e
    cases oe with
    | some err => exact ⟨xs, by simp [main_loop, chain_of]⟩
    | none =>
      by_cases h : ns ≤ chain.length + xs.length
      · exact ⟨xs, by simp [main_loop, chain_of, h]⟩
      · obtain ⟨t, ht⟩ := ih (chain ++ xs)
        refine ⟨xs ++ t, ?_⟩
        have hstep : main_loop ns ((xs, none) :: rest) chain = main_loop ns rest (chain ++ xs) := by
          simp [main_loop, h]
        rw [hstep, ht, List.append_assoc]

end MTMLDA

namespace MTMLDA

/-- String concatenation is associative. -/
theorem str_append_assoc (a b c : String) : a ++ b ++ c = a ++ (b ++ c) := by
  cases a with
  | mk da =>
    cases b with
    | mk db =>
      cases c with
      | mk dc =>
        show String.mk (da ++ db ++ dc) = String.mk (da ++ (db ++ dc))
        rw [List.append_assoc]

/-- Any string extended by an ending ends with that ending. -/
theorem str_ends_with_append (x y : String) : str_ends_with (x ++ y) y = true := by
  have hdata : (x ++ y).data = x.data ++ y.data := rfl
  simp only [str_ends_with, hdata, decide_eq_true_eq]
  rw [List.reverse_append]
  rw [show y.data.length = y.data.reverse.length by simp]
  rw [List.take_left, List.reverse_reverse]

end MTMLDA

namespace MTMLDA

/-! Claim theorems -/

/-- C10: when the configured seed value is a single integer s,
distribute_rng_seeds_to_processes returns int(s * process_id); in
particular process 0 always receives seed 0 regardless of s, and with
s = 0 every process receives seed 0. -/
theorem C10_distribute_seeds : ∀ (s : Int) (pid : Nat),
    distribute_rng_seeds_to_processes (.ofInt s) pid = some (s * (pid : Int))
  ∧ distribute_rng_seeds_to_processes (.ofInt s) 0 = some 0
  ∧ distribute_rng_seeds_to_processes (.ofInt 0) pid = some 0 := by
  intro s pid
  refine ⟨rfl, ?_, ?_⟩ <;> simp [distribute_rng_seeds_to_processes]

/-- C7: set_rngs applied to the snapshot returned by get_rngs restores
exactly the state the snapshot was taken from, so the proposal, mltree and
node initialisation generators are unchanged and any deterministic
continuation of the run produces the same chain tail as without the
snapshot round trip. -/
theorem C7_snapshot_round_trip : ∀ s : SamplerState,
    set_rngs s (get_rngs s) = s
  ∧ ∀ continuation : SamplerState → List Int,
      continuation (set_rngs s (get_rngs s)) = continuation s :=
  fun _ => ⟨rfl, fun _ => rfl⟩

/-- C5: a harvested pair of a result and a node with result below the
underflow threshold detaches the node and leaves its logposterior unset, so
the node is available for no MCMC decision; a result at or above the
threshold is stored as the node logposterior and does not detach the node. -/
theorem C5_underflow_handling : ∀ (thr r : Int) (n : Nat) (σ : TreeState) (required : Nat → List Nat),
    (r < thr →
        (update_from_finished_job thr σ (r, n)).det n = true
      ∧ (update_from_finished_job thr σ (r, n)).lp n = σ.lp n
      ∧ (σ.lp n = none → n ∈ required n →
          check_if_node_is_available_for_decision required (update_from_finished_job thr σ (r, n)) n = false))
  ∧ (¬ r < thr →
        (update_from_finished_job thr σ (r, n)).lp n = some r
      ∧ (update_from_finished_job thr σ (r, n)).det n = σ.det n) := by
  intro thr r n σ required
  constructor
  · intro hlt
    refine ⟨?_, ?_, ?_⟩
    · simp [update_from_finished_job, hlt]
    · simp [update_from_finished_job, hlt]
    · intro hnone hmem
      simp only [update_from_finished_job, hlt, if_pos]
      simp only [check_if_node_is_available_for_decision]
      rw [List.all_eq_false]
      exact ⟨n, hmem, by simp [hnone]⟩
  · intro hge
    constructor
    · simp [update_from_finished_job, hge]
    · simp [update_from_finished_job, hge]

/-- C5 witness: the theorem applied at concrete inputs, once in the
underflow branch and once in the storing branch. -/
theorem C5_underflow_handling_witness :
    (update_from_finished_job 0 exInit (-1, 0)).det 0 = true
  ∧ check_if_node_is_available_for_decision (fun n => [n]) (update_from_finished_job 0 exInit (-1, 0)) 0 = false
  ∧ (update_from_finished_job 0 exInit (1, 0)).lp 0 = some 1 :=
  ⟨((C5_underflow_handling 0 (-1) 0 exInit (fun n => [n])).1 (by decide)).1,
   ((C5_underflow_handling 0 (-1) 0 exInit (fun n => [n])).1 (by decide)).2.2 (by decide) (by decide),
   ((C5_underflow_handling 0 1 0 exInit (fun n => [n])).2 (by decide)).1⟩

end MTMLDA

namespace MTMLDA

/-- C2 counterexample: the claim quantifies over every behaviour of the
collaborators, but the tree initialisation on sampling.py line 87, which
draws from the node initialisation generator, runs before the try block of
lines 90-115; an exception raised there propagates to the caller instead of
a chain being returned. -/
theorem C2_counterexample :
    sampler_run 1 (.error 37) [] 0 = some (.error 37) := rfl

/-- C2 amended: once the try block on sampling.py line 90 is entered, no
exception propagates out of run: whatever the main loop does, including
raising an arbitrary exception (modelled by the iteration effects), the
finally clause returns the chain accumulated so far. Only an exception in
the tree initialisation before the try block (line 87) can propagate. -/
theorem C2_run_swallows_exceptions :
    ∀ (ns : Nat) (effects : List (List Int × Option Nat)) (initial : Int) (r : Except Nat (List Int)),
    sampler_run ns (.ok ()) effects initial = some r →
    r = .ok (chain_of (main_loop ns effects [initial])) := by
  intro ns effects initial r h
  unfold sampler_run at h
  cases hm : main_loop ns effects [initial] with
  | broke c => rw [hm] at h; simp at h; simp [h, chain_of]
  | excepted c e => rw [hm] at h; simp at h; simp [h, chain_of]
  | ongoing c => rw [hm] at h; simp at h

/-- C2 witness: a run whose single iteration raises after appending one
state returns the accumulated chain. -/
theorem C2_run_swallows_exceptions_witness :
    (Except.ok [0, 5] : Except Nat (List Int)) = .ok (chain_of (main_loop 2 [([5], some 9)] [0])) :=
  C2_run_swallows_exceptions 2 [([5], some 9)] 0 (.ok [0, 5]) rfl

/-- C9: every chain that run returns is non-empty and starts with the
initial state from the run settings, which is placed in the chain on
sampling.py line 88, before the main loop starts, even though it was never
accepted by a Metropolis decision; this holds also when an exception is
raised before any MCMC decision is made. -/
theorem C9_chain_starts_with_initial :
    ∀ (ns : Nat) (rd : Except Nat Unit) (effects : List (List Int × Option Nat))
      (initial : Int) (c : List Int),
    sampler_run ns rd effects initial = some (.ok c) →
    c ≠ [] ∧ c.head? = some initial := by
  intro ns rd effects initial c h
  cases rd with
  | error e => simp [sampler_run] at h
  | ok u =>
    unfold sampler_run at h
    obtain ⟨t, ht⟩ := main_loop_chain_decomp ns effects [initial]
    cases hm : main_loop ns effects [initial] with
    | broke c2 =>
      rw [hm] at h ht
      simp only [chain_of] at ht
      simp at h
      subst h
      rw [ht]
      exact ⟨by simp, by simp⟩
    | excepted c2 e =>
      rw [hm] at h ht
      simp only [chain_of] at ht
      simp at h
      subst h
      rw [ht]
      exact ⟨by simp, by simp⟩
    | ongoing c2 =>
      rw [hm] at h
      simp at h

/-- C9 witness: a run interrupted by an exception in its first iteration,
before any decision, still returns the chain seeded with the initial
state. -/
theorem C9_chain_starts_with_initial_witness :
    ([7] : List Int) ≠ [] ∧ ([7] : List Int).head? = some 7 :=
  C9_chain_starts_with_initial 5 (.ok ()) [([], some 3)] 7 [7] rfl

end MTMLDA

namespace MTMLDA

/-- C1 counterexample: with num_samples = 2 and a chain already holding the
initial state, one iteration whose tree has a fully resolved promotion path
of two steps makes _propagate_chain append two states, so the run completes
normally with a chain of length 3, not 2: _propagate_chain does not stop
appending when the chain reaches num_samples. -/
theorem C1_counterexample :
    (run_loop_p 2 [fun t => t] [0] (spine 2)).2.2 = true
  ∧ (run_loop_p 2 [fun t => t] [0] (spine 2)).1.length ≠ 2 := by
  constructor <;> decide

/-- C1 amended: on normal completion of the main loop the chain has at
least num_samples entries (possibly more, since the chain advancement phase
appends every resolved state before the break on sampling.py line 105 is
checked), and the chain only ever grows: the final chain extends the chain
the loop started from, whatever the first three phases of each iteration do
to the tree. -/
theorem C1_chain_length_bound :
    ∀ (ns : Nat) (fs : List (MTNode → MTNode)) (chain : List Int) (root : MTNode),
    ((run_loop_p ns fs chain root).2.2 = true → ns ≤ (run_loop_p ns fs chain root).1.length)
  ∧ ∃ t, (run_loop_p ns fs chain root).1 = chain ++ t := by
  intro ns fs
  induction fs with
  | nil =>
    intro chain root
    constructor
    · intro h; simp [run_loop_p] at h
    · exact ⟨[], by simp [run_loop_p]⟩
  | cons f rest ih =>
    intro chain root
    by_cases h : ns ≤ (propagate_chain chain (f root)).1.length
    · have hrun : run_loop_p ns (f :: rest) chain root
          = ((propagate_chain chain (f root)).1, (propagate_chain chain (f root)).2, true) := by
        simp [run_loop_p, h]
      constructor
      · intro _; rw [hrun]; exact h
      · refine ⟨(spine_nodes (f root)).map MTNode.state, ?_⟩
        rw [hrun]
        exact propagate_chain_fst chain (f root)
    · have hrun : run_loop_p ns (f :: rest) chain root
          = run_loop_p ns rest (propagate_chain chain (f root)).1 (propagate_chain chain (f root)).2 := by
        simp [run_loop_p, h]
      have ihs := ih (propagate_chain chain (f root)).1 (propagate_chain chain (f root)).2
      constructor
      · intro hc
        rw [hrun] at hc ⊢
        exact ihs.1 hc
      · obtain ⟨t, ht⟩ := ihs.2
        refine ⟨(spine_nodes (f root)).map MTNode.state ++ t, ?_⟩
        rw [hrun, ht, propagate_chain_fst, List.append_assoc]

/-- C1 witness: the length bound applied to a normally completing concrete
run. -/
theorem C1_chain_length_bound_witness :
    2 ≤ (run_loop_p 2 [fun t => t] [0] (spine 2)).1.length :=
  (C1_chain_length_bound 2 [fun t => t] [0] (spine 2)).1 (by decide)

/-- C4 counterexample: starting from a bare root (the tree state at the
start of a run) with max_tree_height = 5 and six available workers, the
extend-and-submit loop expands the tree to height 6, because the loop guard
on sampling.py line 145 compares the current height with the bound before
expanding once more; the tree height does exceed max_tree_height. -/
theorem C4_counterexample :
    ¬ MTNode.height (extend_tree_and_launch_jobs 5 (fun x => x) 6 (spine 0)) ≤ 5 := by
  decide

/-- C4 amended: the extend-and-submit loop stops expanding once the tree
height exceeds the bound (or no worker is available), so the height after
the loop never exceeds max_tree_height + 1, unless the tree was already
higher when the loop started. -/
theorem C4_height_bound :
    ∀ (maxH : Nat) (p : Int → Int) (workers : Nat) (t : MTNode),
    MTNode.height (extend_tree_and_launch_jobs maxH p workers t) ≤ max (MTNode.height t) (maxH + 1) := by
  intro maxH p workers
  induction workers with
  | zero => intro t; simp [extend_tree_and_launch_jobs]
  | succ n ih =>
    intro t
    by_cases h : MTNode.height t ≤ maxH
    · have h1 := ih (expand_tree p t)
      have h2 := expand_height_le p t
      have h3 : max (MTNode.height (expand_tree p t)) (maxH + 1) = maxH + 1 := by
        apply Nat.max_eq_right; omega
      have h4 : extend_tree_and_launch_jobs maxH p (n + 1) t
          = extend_tree_and_launch_jobs maxH p n (expand_tree p t) := by
        simp [extend_tree_and_launch_jobs, h]
      rw [h4]
      calc MTNode.height (extend_tree_and_launch_jobs maxH p n (expand_tree p t))
          ≤ max (MTNode.height (expand_tree p t)) (maxH + 1) := h1
        _ = maxH + 1 := h3
        _ ≤ max (MTNode.height t) (maxH + 1) := Nat.le_max_right _ _
    · have h4 : extend_tree_and_launch_jobs maxH p (n + 1) t = t := by
        simp [extend_tree_and_launch_jobs, h]
      rw [h4]
      exact Nat.le_max_left _ _

/-- C6: the chain advancement phase appends exactly the states of the
successive roots, in promotion order, and every node of the promotion
sequence either is the root the phase started from or is the unique
same-subchain child of an earlier member, that is, it was the tree root at
the moment its state was appended. -/
theorem C6_appended_states_are_root_states :
    ∀ (chain : List Int) (root : MTNode),
    (propagate_chain chain root).1 = chain ++ (spine_nodes root).map MTNode.state
  ∧ ∀ n ∈ spine_nodes root,
      n = root ∨ ∃ m ∈ spine_nodes root, get_unique_same_subchain_child m = some n := by
  intro chain root
  refine ⟨propagate_chain_fst chain root, ?_⟩
  induction root using spine_nodes.induct with
  | case1 s => simp [spine_nodes]
  | case2 s c ih =>
    intro n hn
    rw [spine_nodes] at hn
    rcases List.mem_cons.mp hn with h | h
    · left; exact h
    · right
      rcases ih n h with rfl | ⟨m, hm, hgm⟩
      · exact ⟨.node s [n], by simp [spine_nodes], by simp [get_unique_same_subchain_child]⟩
      · exact ⟨m, by rw [spine_nodes]; exact List.mem_cons_of_mem _ hm, hgm⟩
  | case3 s c1 c2 cs => simp [spine_nodes]

/-- C6 witness: the membership part applied to the head of a concrete
promotion sequence. -/
theorem C6_appended_states_are_root_states_witness :
    spine 2 = spine 2
  ∨ ∃ m ∈ spine_nodes (spine 2), get_unique_same_subchain_child m = some (spine 2) :=
  (C6_appended_states_are_root_states [] (spine 2)).2 (spine 2) (List.mem_cons_self _ _)

end MTMLDA

namespace MTMLDA

/-- C8 counterexample: for a save path whose final component carries an
ending, here chain.dat, the chain is written to chain.dat_0.npy, because
append_string_to_path interpolates path.name, while the stem of the path is
chain, so the claimed name chain_0.npy is not the one used. -/
theorem C8_counterexample :
    (np_save_target (save_chain_file 0 ⟨[], ("chain.dat")⟩)).name
      ≠ pyStem ("chain.dat") ++ "_" ++ toString (0 : Nat) ++ ".npy" := by
  decide

/-- C8 amended: for every process index i and path, save_chain writes to a
file whose final component is the path NAME followed by an underscore, i
and .npy (numpy keeps this name since it already ends in .npy), and
save_node and save_rng_states write to name_i.pkl files; each load function
uses exactly the file name of the corresponding save function. When the
final component carries no ending, its name and its stem coincide, and the
names are stem_i.npy and stem_i.pkl as the claim states. -/
theorem C8_file_names :
    ∀ (pid : Nat) (p : FPath),
    (np_save_target (save_chain_file pid p)).name = p.name ++ "_" ++ toString pid ++ ".npy"
  ∧ load_chain_file pid p = save_chain_file pid p
  ∧ (save_node_file pid p).name = p.name ++ "_" ++ toString pid ++ ".pkl"
  ∧ load_node_file pid p = save_node_file pid p
  ∧ (save_rng_states_file pid p).name = p.name ++ "_" ++ toString pid ++ ".pkl"
  ∧ load_rng_states_file pid p = save_rng_states_file pid p
  ∧ (pyStem p.name = p.name →
      (np_save_target (save_chain_file pid p)).name
        = pyStem p.name ++ "_" ++ toString pid ++ ".npy") := by
  intro pid p
  have hname : (save_chain_file pid p).name = p.name ++ "_" ++ toString pid ++ (".npy") :=
    (str_append_assoc (p.name ++ "_") (toString pid) (".npy")).symm
  have hends : str_ends_with (save_chain_file pid p).name (".npy") = true := by
    rw [hname]
    exact str_ends_with_append (p.name ++ "_" ++ toString pid) (".npy")
  have hnp : np_save_target (save_chain_file pid p) = save_chain_file pid p := by
    simp [np_save_target, hends]
  have hmain : (np_save_target (save_chain_file pid p)).name
      = p.name ++ "_" ++ toString pid ++ ".npy" := by
    rw [hnp, hname]
  refine ⟨hmain, rfl, ?_, rfl, ?_, rfl, ?_⟩
  · exact (str_append_assoc (p.name ++ "_") (toString pid) (".pkl")).symm
  · exact (str_append_assoc (p.name ++ "_") (toString pid) (".pkl")).symm
  · intro hstem
    rw [hmain, hstem]

/-- C8 witness: for a path without an ending the amended theorem yields the
stem-keyed name of the claim. -/
theorem C8_file_names_witness :
    (np_save_target (save_chain_file 3 ⟨[], ("chain")⟩)).name
      = pyStem ("chain") ++ "_" ++ toString (3 : Nat) ++ ".npy" :=
  (C8_file_names 3 ⟨[], ("chain")⟩).2.2.2.2.2.2 (by decide)

end MTMLDA

namespace MTMLDA

/-- Two harvested jobs for distinct nodes can be applied in either order. -/
theorem update_job_comm (thr : Int) (σ : TreeState) (j k : Int × Nat) (h : j.2 ≠ k.2) :
    update_from_finished_job thr (update_from_finished_job thr σ j) k
  = update_from_finished_job thr (update_from_finished_job thr σ k) j := by
  obtain ⟨lp, det⟩ := σ
  obtain ⟨jr, jn⟩ := j
  obtain ⟨kr, kn⟩ := k
  have hn : jn ≠ kn := h
  by_cases hj : jr < thr <;> by_cases hk : kr < thr
  · simp only [update_from_finished_job, hj, hk, ite_true, if_pos]
    simp only [TreeState.mk.injEq, true_and, and_true]
    exact Function.update_comm hn true true det
  · simp [update_from_finished_job, hj, hk]
  · simp [update_from_finished_job, hj, hk]
  · simp only [update_from_finished_job, hj, hk, ite_false, if_neg, not_false_iff]
    simp only [TreeState.mk.injEq, true_and, and_true]
    exact Function.update_comm hn (some jr) (some kr) lp

/-- Harvesting the same finished jobs in any order gives the same tree
state, provided the harvested nodes are pairwise distinct (each node is
submitted at most once, spec section 2 item 4 and section 9). -/
theorem harvest_perm (thr : Int) :
    ∀ {l lq : List (Int × Nat)}, l.Perm lq → (l.map Prod.snd).Nodup →
    ∀ σ, update_tree_from_finished_jobs thr σ l = update_tree_from_finished_jobs thr σ lq := by
  intro l lq hp
  induction hp with
  | nil => intro _ _; rfl
  | cons x hp ih =>
    intro hnd σ
    rw [List.map_cons, List.nodup_cons] at hnd
    show update_tree_from_finished_jobs thr (update_from_finished_job thr σ x) _
       = update_tree_from_finished_jobs thr (update_from_finished_job thr σ x) _
    exact ih hnd.2 _
  | swap x y l =>
    intro hnd σ
    have hxy : y.2 ≠ x.2 := by
      rw [List.map_cons, List.map_cons, List.nodup_cons] at hnd
      intro he
      exact hnd.1 (by rw [he]; exact List.mem_cons_self _ _)
    show update_tree_from_finished_jobs thr
          (update_from_finished_job thr (update_from_finished_job thr σ y) x) l
       = update_tree_from_finished_jobs thr
          (update_from_finished_job thr (update_from_finished_job thr σ x) y) l
    rw [update_job_comm thr σ y x hxy]
  | trans h1 h2 ih1 ih2 =>
    intro hnd σ
    rw [ih1 hnd σ, ih2 (((h1.map Prod.snd).nodup_iff).mp hnd) σ]

/-- C3 counterexample: two runs over the same multiset of job completions,
delivered once in a single iteration and once spread over two iterations,
return different chains: when both decisions resolve in one iteration the
chain advancement appends both states before the break at num_samples = 2
is checked, giving a chain of length 3, while the spread delivery breaks at
length 2; the returned chain is not invariant under all permutations of
worker completion times. -/
theorem C3_counterexample :
    ([((5 : Int), (1 : Nat)), (5, 2)]).Perm ([((5 : Int), (1 : Nat))] ++ [(5, 2)])
  ∧ run_batches exChildren exStates (fun σ => σ) (-1000) 2 5 [[(5, 1), (5, 2)]] exInit 0 [100]
      = some [100, 0, 1]
  ∧ run_batches exChildren exStates (fun σ => σ) (-1000) 2 5 [[(5, 1)], [(5, 2)]] exInit 0 [100]
      = some [100, 0]
  ∧ run_batches exChildren exStates (fun σ => σ) (-1000) 2 5 [[(5, 1), (5, 2)]] exInit 0 [100]
      ≠ run_batches exChildren exStates (fun σ => σ) (-1000) 2 5 [[(5, 1)], [(5, 2)]] exInit 0 [100] := by
  refine ⟨?_, ?_, ?_, ?_⟩ <;> decide

/-- C3 amended: holding the multiset of completions harvested in each main
loop iteration fixed, the returned chain is invariant under permutations of
the completion order within every harvest, provided the nodes harvested in
one iteration are pairwise distinct; the harvesting fold is
order-invariant for distinct nodes, and the decision, compression and
advancement phases are deterministic functions of the resulting tree
state. Redistributing completions across iterations can change the
returned chain, as the counterexample shows. -/
theorem C3_permutation_within_harvest :
    ∀ (children : Nat → List Nat) (stOf : Nat → Int) (dp : TreeState → TreeState)
      (thr : Int) (ns fuel : Nat) (B Bq : List (List (Int × Nat))),
    List.Forall₂ (fun b bq => b.Perm bq ∧ (b.map Prod.snd).Nodup) B Bq →
    ∀ σ r chain,
      run_batches children stOf dp thr ns fuel B σ r chain
        = run_batches children stOf dp thr ns fuel Bq σ r chain := by
  intro children stOf dp thr ns fuel B Bq hF
  induction hF with
  | nil => intro σ r chain; rfl
  | @cons a b l1 l2 hab hF ih =>
    intro σ r chain
    obtain ⟨hperm, hnd⟩ := hab
    simp only [run_batches]
    rw [harvest_perm thr hperm hnd σ]
    by_cases h : ns ≤ (chain ++ (propagate_flags children stOf fuel
        (dp (update_tree_from_finished_jobs thr σ b)) r).1).length
    · simp only [h, if_true]
    · simp only [h, if_false]
      exact ih _ _ _

/-- C3 witness: permuting a two-job harvest within one iteration leaves the
returned chain unchanged. -/
theorem C3_permutation_within_harvest_witness :
    run_batches exChildren exStates (fun σ => σ) (-1000) 2 5 [[(5, 1), (5, 2)]] exInit 0 [100]
  = run_batches exChildren exStates (fun σ => σ) (-1000) 2 5 [[(5, 2), (5, 1)]] exInit 0 [100] :=
  C3_permutation_within_harvest exChildren exStates (fun σ => σ) (-1000) 2 5 _ _
    (List.Forall₂.cons ⟨by decide, by decide⟩ List.Forall₂.nil) exInit 0 [100]

end MTMLDA
